import Mathlib

/-!
Shallow embedding of the resource-aggregation client in `src/client/mod.rs`
of `spotify-client-rs`, together with proofs about its pagination walkers,
result reconciliation policies, playlist mutation helpers, search
orchestration and HTTP response handling.

Conventions used throughout:
* Rust `Result<T>` values are embedded as `Except SpotifyError T`.
* Rust functions that can panic (`unwrap`) are embedded as `Option`-returning
  functions where `none` models the panic.
* The asynchronous fetch capability is embedded as an explicit function
  argument mapping a URL (and query payload) to the page the upstream would
  serve for it; the `while let` pagination loops are embedded with an explicit
  fuel argument bounding the number of iterations the loop may take.
* Machine integers (`usize`) are embedded as `Nat`; the index arithmetic in
  the reorder endpoint is far below any overflow boundary.
* The repository's `model` module (domain records `Track`, `Album`, ... and
  their fallible conversions) and `client/spotify.rs` (token retrieval) are
  referenced by `client/mod.rs` but are not part of the given sources; those
  data types are modelled from the spec, as documented on each definition.
-/

namespace SpotifyClient

/-- Query payloads, as in `rspotify::http::Query`: a list of key/value pairs.
Source: `market_query()` builds `Query::from([("market", "from_token")])`. -/
def Query := List (String × String)

/-- Source: `fn market_query() -> Query<'static> { Query::from([("market", "from_token")]) }`. -/
def market_query : Query := [("market", "from_token")]

/-- Error taxonomy of the client (spec section 7). The embedding only needs to
distinguish failure reasons, not their payloads. -/
inductive SpotifyError where
  | auth
  | transport
  | decode
  deriving DecidableEq, Repr

/-- Embeds `rspotify_model::Page<T>`: an ordered item list plus an optional next URL.
Source fields used by `client/mod.rs`: `items`, `next`. -/
structure Page (α : Type) where
  items : List α
  next : Option String
  deriving DecidableEq, Repr

/-- Embeds `rspotify_model::CursorBasedPage<T>`: structurally identical to `Page`
from the walker's point of view (spec section 3). -/
structure CursorBasedPage (α : Type) where
  items : List α
  next : Option String
  deriving DecidableEq, Repr

/-- The `while let Some(url) = maybe_next` loop shared by
`Client::all_paging_items` and `Client::all_cursor_based_paging_items`:
accumulated `items` are extended with each fetched page's items (in order) and
the walk continues from that page's `next`.  `fetch` embeds
`http_get::<Page<T>>(&url, payload)`; `fuel` bounds the number of loop
iterations, `none` meaning the bound was hit before `next` became absent. -/
def paging_go (fetch : String → Query → Except SpotifyError (Page α)) (payload : Query) :
    Nat → List α → Option String → Option (Except SpotifyError (List α))
  | _, items, none => some (.ok items)
  | 0, _, some _ => none
  | fuel + 1, items, some url =>
    match fetch url payload with
    | .error e => some (.error e)
    | .ok page => paging_go fetch payload fuel (items ++ page.items) page.next

/-- Source: `Client::all_paging_items`, which starts from
`first_page.items`/`first_page.next` and passes the caller's `payload` query to
every subsequent `http_get`. -/
def all_paging_items (fetch : String → Query → Except SpotifyError (Page α))
    (first_page : Page α) (payload : Query) (fuel : Nat) :
    Option (Except SpotifyError (List α)) :=
  paging_go fetch payload fuel first_page.items first_page.next

/-- Source: `Client::all_cursor_based_paging_items`, identical loop but every
subsequent fetch uses an empty query (`&Query::new()`). -/
def all_cursor_based_paging_items (fetch : String → Query → Except SpotifyError (Page α))
    (first_page : CursorBasedPage α) (fuel : Nat) :
    Option (Except SpotifyError (List α)) :=
  paging_go fetch [] fuel first_page.items first_page.next

/-- The upstream serves, starting from link `next`, exactly the chain of pages
`ps`: each link fetches the corresponding page and the last page's `next` is
absent. -/
def FetchChain (fetch : String → Query → Except SpotifyError (Page α)) (payload : Query) :
    Option String → List (Page α) → Prop
  | none, [] => True
  | none, _ :: _ => False
  | some _, [] => False
  | some url, p :: ps => fetch url payload = .ok p ∧ FetchChain fetch payload p.next ps

end SpotifyClient

namespace SpotifyClient

/-- The replaced pattern, `"images":null`, as a character list. -/
def imagesNullPat : List Char := '"' :: 'i' :: 'm' :: 'a' :: 'g' :: 'e' :: 's' :: '"' :: ':' :: 'n' :: 'u' :: 'l' :: 'l' :: []

/-- The replacement text, `"images":[]`, as a character list. -/
def imagesEmptyRep : List Char := '"' :: 'i' :: 'm' :: 'a' :: 'g' :: 'e' :: 's' :: '"' :: ':' :: '[' :: ']' :: []

/-- Rust's `str::replace(PAT, REP)` specialised to the pattern above: scan left
to right, replace every non-overlapping occurrence, resume scanning after the
replaced occurrence.  Embeds the body of `process_spotify_api_response`,
a single `text.replace(PAT, REP)` call with PAT the literal text
`"images":null` and REP the literal text `"images":[]`. -/
def listReplace : List Char → List Char
  | [] => []
  | c :: cs =>
    if _h : imagesNullPat <+: c :: cs then
      imagesEmptyRep ++ listReplace (cs.drop 12)
    else
      c :: listReplace cs
  termination_by s => s.length
  decreasing_by
    · simp only [List.length_cons]
      exact Nat.lt_succ_of_le (List.length_drop 12 cs ▸ Nat.sub_le _ _)
    · simp

/-- Source: the helper `process_spotify_api_response` nested in
`Client::http_get`, which rewrites the raw body text before decoding. -/
def process_spotify_api_response (text : List Char) : List Char :=
  listReplace text

/-- No occurrence of the `"images":null` pattern anywhere in `s`. -/
def NoOcc (s : List Char) : Prop :=
  ∀ n : Nat, ¬ imagesNullPat <+: s.drop n

/-- An HTTP response as observed by `http_get`: `reqwest` exposes a status
code and a body text; `http_get` reads the body with `response.text()`. -/
structure HttpResponse where
  status : Nat
  body : List Char
  deriving DecidableEq, Repr

/-- Source: `Client::http_get`.  `token` embeds `self.access_token().await?`
(from the `client/spotify.rs` module, not in the given sources; modelled from
the spec as a fallible token retrieval).  `response` embeds the outcome of
`send().await?` — a transport error or a response.  On success the body is
patched by `process_spotify_api_response` and decoded
(`serde_json::from_str`, embedded as the fallible `decode`); a decode failure
is the only failure after transport.  Note the source never reads
`response.status()`. -/
def http_get (token : Except SpotifyError String)
    (decode : List Char → Option α)
    (response : Except SpotifyError HttpResponse) : Except SpotifyError α :=
  match token with
  | .error e => .error e
  | .ok _ =>
    match response with
    | .error e => .error e
    | .ok resp =>
      match decode (process_spotify_api_response resp.body) with
      | some v => .ok v
      | none => .error .decode

end SpotifyClient

namespace SpotifyClient

/-- Modelled from the spec: the repository's `model` module (not in the given
sources) defines the domain `Track` record; for the claims here only its
`name` and an identifier are relevant. -/
structure Track where
  name : String
  id : Nat
  deriving DecidableEq, Repr

/-- Modelled from the spec: the upstream `FullTrack` shape from which a domain
`Track` is converted; the spec says the conversion "may fail (e.g., a track
lacking required fields)", which the `convertible` flag captures. -/
structure FullTrack where
  name : String
  id : Nat
  convertible : Bool
  deriving DecidableEq, Repr

/-- Modelled from the spec: `Track::try_from_full_track` (in the missing
`model` module) is a fallible mapping from the upstream shape to the domain
record; per the spec it returns a value or nothing. -/
def Track.try_from_full_track (t : FullTrack) : Option Track :=
  if t.convertible then some ⟨t.name, t.id⟩ else none

/-- Embeds `rspotify_model::PlayHistory`: a play-history entry wrapping the played
track (only the `track` field is used by the source). -/
structure PlayHistory where
  track : FullTrack
  deriving DecidableEq, Repr

/-- The deduplication loop of `Client::current_user_recently_played_tracks`:

    for history in play_histories {
        if !tracks.iter().any(|t| t.name == history.track.name) {
            if let Some(track) = Track::try_from_full_track(history.track) {
                tracks.push(track);
            }
        }
    }

`tracks` is the accumulator of already-kept (successfully converted) tracks. -/
def recently_played_go (tracks : List Track) : List PlayHistory → List Track
  | [] => tracks
  | h :: rest =>
    if tracks.any (fun t => t.name = h.track.name) then
      recently_played_go tracks rest
    else
      match Track.try_from_full_track h.track with
      | some track => recently_played_go (tracks ++ [track]) rest
      | none => recently_played_go tracks rest

/-- Source: the pure post-processing stage of
`Client::current_user_recently_played_tracks`, applied to the fully collected
cursor-based pages of play histories. -/
def recently_played_dedup (play_histories : List PlayHistory) : List Track :=
  recently_played_go [] play_histories

/-- The spec's description of the recently-played policy, written from its
words for comparison: "scanning in the order received, keep the first
occurrence of each distinct track name; later occurrences of an already-seen
name are dropped". -/
def spec_dedup (seen : List String) : List PlayHistory → List Track
  | [] => []
  | h :: rest =>
    if h.track.name ∈ seen then spec_dedup seen rest
    else ⟨h.track.name, h.track.id⟩ :: spec_dedup (h.track.name :: seen) rest

/-- Modelled from the spec: the domain `Album` record of the missing `model`
module.  The spec states release dates "must be comparable; a release date
that fails to compare against another is a programming/data error", so the
release date is modelled as an optional date where a missing date fails to
compare against anything (the partiality the spec alludes to). -/
structure Album where
  name : String
  release_date : Option Nat
  deriving DecidableEq, Repr

/-- Modelled from the spec: the upstream `SimplifiedAlbum` shape; conversion
into a domain `Album` is fallible (`Album::try_from_simplified_album`). -/
structure SimplifiedAlbum where
  name : String
  release_date : Option Nat
  convertible : Bool
  deriving DecidableEq, Repr

/-- Modelled from the spec: `Album::try_from_simplified_album`, the fallible
conversion used by `artist_albums` and the album arm of `search`. -/
def Album.try_from_simplified_album (s : SimplifiedAlbum) : Option Album :=
  if s.convertible then some ⟨s.name, s.release_date⟩ else none

/-- The comparator `x.release_date.partial_cmp(&y.release_date)`: a partial
comparison, `none` when the two dates fail to compare. -/
def release_date_cmp : Option Nat → Option Nat → Option Ordering
  | some x, some y => some (compare x y)
  | _, _ => none

/-- One insertion step of a stable comparison sort in the Option monad:
`none` models the `.unwrap()` panic inside the comparator passed to
`albums.sort_by(...)` when a comparison fails.  The new element is placed
after every element it does not compare strictly less than, which is the
stable order `slice::sort_by` guarantees. -/
def sort_insert (a : Album) : List Album → Option (List Album)
  | [] => some [a]
  | b :: l =>
    match release_date_cmp a.release_date b.release_date with
    | none => none
    | some .lt => some (a :: b :: l)
    | some _ => (sort_insert a l).map (fun l2 => b :: l2)

/-- Embeds `albums.sort_by(|x, y| x.release_date.partial_cmp(&y.release_date).unwrap())`:
a stable sort by ascending release date, embedded as repeated stable
insertion; `none` models the panic of `.unwrap()` on an incomparable pair. -/
def sort_by_release_go (acc : List Album) : List Album → Option (List Album)
  | [] => some acc
  | a :: rest =>
    match sort_insert a acc with
    | none => none
    | some acc2 => sort_by_release_go acc2 rest

/-- The `rfold` of `process_artist_albums`: visit the sorted list from the end
toward the start (here: the reversed list front to back), push each album
whose name has not been seen, remember seen names. -/
def dedup_albums_go (seen : List String) (acc : List Album) : List Album → List Album
  | [] => acc
  | a :: rest =>
    if a.name ∈ seen then dedup_albums_go seen acc rest
    else dedup_albums_go (a.name :: seen) (acc ++ [a]) rest

/-- Source: `Client::process_artist_albums` — sort by release date (panicking
via `unwrap` when a comparison fails, modelled by `none`), then `rfold` from
the end keeping the first-encountered album per distinct name. -/
def process_artist_albums (albums : List Album) : Option (List Album) :=
  match sort_by_release_go [] albums with
  | none => none
  | some sorted => some (dedup_albums_go [] [] sorted.reverse)

/-- Recursion-friendly restatement of `dedup_albums_go` without the
accumulator, related to it by `dedup_albums_go_eq`. -/
def dedup_simple (seen : List String) : List Album → List Album
  | [] => []
  | a :: rest =>
    if a.name ∈ seen then dedup_simple seen rest
    else a :: dedup_simple (a.name :: seen) rest

/-- Ascending-release-date order on albums with present dates. -/
def dateLe (a b : Album) : Prop :=
  a.release_date.getD 0 ≤ b.release_date.getD 0

/-- Every album in the list carries a release date (the spec's "dates must be
comparable" precondition). -/
def AllDated (l : List Album) : Prop :=
  ∀ a ∈ l, a.release_date.isSome

end SpotifyClient

namespace SpotifyClient

/-- Modelled from the spec: the external id constructor
(`UserId::from_id` of the catalog-API binding) validates the raw id and fails
on structurally invalid input; modelled as requiring ASCII-alphanumeric
characters. -/
def valid_user_id (name : String) : Bool :=
  name.toList.all fun c => c.isAlphanum

/-- Source: `Client::username` — `UserId::from_id(name).unwrap()` on the
configured login name; `none` models the `unwrap` panic when validation
fails. -/
def username (login_name : String) : Option String :=
  if valid_user_id login_name then some login_name else none

/-- Modelled from the spec: the upstream "remove all occurrences" playlist
endpoint (`playlist_remove_all_occurrences_of_items` with a single track id)
removes every occurrence of that track from the playlist. -/
def playlist_remove_all_occurrences_of_items (playlist : List String) (track_id : String) :
    List String :=
  playlist.filter (fun t => t ≠ track_id)

/-- Modelled from the spec: the upstream "add items" playlist endpoint
(`playlist_add_items` with a single track id) appends the track once. -/
def playlist_add_items (playlist : List String) (track_id : String) : List String :=
  playlist ++ [track_id]

/-- Source: `Client::add_track_to_playlist` — first remove all occurrences of
the track, then add it once. -/
def add_track_to_playlist (playlist : List String) (track_id : String) : List String :=
  playlist_add_items (playlist_remove_all_occurrences_of_items playlist track_id) track_id

/-- Source: the `insert_before` computation of
`Client::reorder_playlist_items`:

    let insert_before = match insert_index > range_start {
        true => insert_index + 1,
        false => insert_index,
    };
-/
def reorder_insert_before (insert_index range_start : Nat) : Nat :=
  match decide (insert_index > range_start) with
  | true => insert_index + 1
  | false => insert_index

end SpotifyClient

namespace SpotifyClient

/-- Modelled from the spec: the upstream `FullArtist` shape; conversion into
the domain artist record is total (`.map(|a| a.into())` in the source). -/
structure FullArtist where
  name : String
  deriving DecidableEq, Repr

/-- Modelled from the spec: the domain `Artist` record. -/
structure Artist where
  name : String
  deriving DecidableEq, Repr

/-- Modelled from the spec: the upstream `SimplifiedPlaylist` shape; conversion
into the domain playlist record is total (`.map(|i| i.into())`). -/
structure SimplifiedPlaylist where
  name : String
  deriving DecidableEq, Repr

/-- Modelled from the spec: the domain `Playlist` record. -/
structure Playlist where
  name : String
  deriving DecidableEq, Repr

/-- Embeds `rspotify_model::SearchResult`: the tagged union of the four catalog page
kinds a search can return. -/
inductive SearchResult where
  | Tracks (items : List FullTrack)
  | Artists (items : List FullArtist)
  | Albums (items : List SimplifiedAlbum)
  | Playlists (items : List SimplifiedPlaylist)
  deriving DecidableEq, Repr

/-- Kind test used to state the search claims. -/
def SearchResult.isTracks : SearchResult → Bool
  | .Tracks _ => true
  | _ => false

/-- Kind test used to state the search claims. -/
def SearchResult.isArtists : SearchResult → Bool
  | .Artists _ => true
  | _ => false

/-- Kind test used to state the search claims. -/
def SearchResult.isAlbums : SearchResult → Bool
  | .Albums _ => true
  | _ => false

/-- Kind test used to state the search claims. -/
def SearchResult.isPlaylists : SearchResult → Bool
  | .Playlists _ => true
  | _ => false

/-- Embeds `state::SearchResults`: one ordered sequence per catalog type. -/
structure SearchResults where
  tracks : List Track
  artists : List Artist
  albums : List Album
  playlists : List Playlist
  deriving DecidableEq, Repr

/-- Source: `Client::search`.  The four type-specific sub-searches run under
`tokio::try_join!` — all four must succeed, otherwise the whole call fails
with a sub-error — and then each result is matched against the requested
kind, a mismatch being a fatal `bail!` (embedded as a decode-level error), in
the order track, artist, album, playlist.  The item conversions mirror the
source's `filter_map`/`map` arms. -/
def search (track_result artist_result album_result playlist_result :
    Except SpotifyError SearchResult) : Except SpotifyError SearchResults :=
  match track_result, artist_result, album_result, playlist_result with
  | .ok t, .ok a, .ok b, .ok p =>
    match t with
    | .Tracks ti =>
      match a with
      | .Artists ai =>
        match b with
        | .Albums bi =>
          match p with
          | .Playlists pi =>
            .ok ⟨ti.filterMap Track.try_from_full_track,
                 ai.map (fun x => ⟨x.name⟩),
                 bi.filterMap Album.try_from_simplified_album,
                 pi.map (fun x => ⟨x.name⟩)⟩
          | _ => .error .decode
        | _ => .error .decode
      | _ => .error .decode
    | _ => .error .decode
  | .error e, _, _, _ => .error e
  | _, .error e, _, _ => .error e
  | _, _, .error e, _ => .error e
  | _, _, _, .error e => .error e

end SpotifyClient

namespace SpotifyClient

/-- An `Except` value is an error exactly when it is not a success. -/
theorem except_error_iff_not_ok {ε β : Type} (x : Except ε β) :
    (∃ e, x = .error e) ↔ ¬ ∃ v, x = .ok v := by
  cases x <;> simp

/-- Claim C6: for all `insertIndex` and `rangeStart`, `reorder_playlist_items`
passes the upstream "insert before" position as `insertIndex + 1` when
`insertIndex > rangeStart` and as `insertIndex` unchanged otherwise; in
particular `insertIndex = 5, rangeStart = 2` gives 6 and
`insertIndex = 1, rangeStart = 2` gives 1. -/
theorem claim_C6_reorder_insert_before :
    (∀ insert_index range_start : Nat,
      reorder_insert_before insert_index range_start =
        if range_start < insert_index then insert_index + 1 else insert_index) ∧
    reorder_insert_before 5 2 = 6 ∧ reorder_insert_before 1 2 = 1 := by
  refine ⟨fun insert_index range_start => ?_, rfl, rfl⟩
  by_cases h : range_start < insert_index <;>
    simp [reorder_insert_before, gt_iff_lt, h]

/-- Claim C7: a successful `add_track_to_playlist` first removes all existing
occurrences of the track and then adds it exactly once, so afterwards the
track occurs exactly once in the playlist, regardless of how many occurrences
existed before. -/
theorem claim_C7_add_track_exactly_once :
    ∀ (playlist : List String) (track_id : String),
      (add_track_to_playlist playlist track_id).count track_id = 1 := by
  intro playlist track_id
  rw [add_track_to_playlist, playlist_add_items, playlist_remove_all_occurrences_of_items,
    List.count_append]
  have h0 : (playlist.filter (fun t => t ≠ track_id)).count track_id = 0 := by
    rw [List.count_eq_zero]
    intro hmem
    have := List.of_mem_filter hmem
    simp at this
  rw [h0]
  simp [List.count_cons]

/-- Claim C1 counterexample: `http_get` succeeds on a response with status
code 500 whose body decodes, refuting "a response with a non-2xx status code
causes the operation to fail, and the returned error carries that status code
in its message" — the source never reads the status code at all. -/
theorem claim_C1_counterexample :
    http_get (.ok "token") (fun _ => some 0) (.ok ⟨500, "irrelevant".toList⟩) =
      .ok 0 := rfl

/-- Claim C1 (amended): `http_get` never inspects the HTTP status code: two
responses with the same body produce the same outcome whatever their status
codes, and a catalog GET succeeds exactly when token retrieval succeeded and
the patched body decodes — even when the status is non-2xx; no error it
returns carries a status code. -/
theorem claim_C1_amended (α : Type) :
    (∀ (token : Except SpotifyError String) (decode : List Char → Option α)
      (st1 st2 : Nat) (body : List Char),
      http_get token decode (.ok ⟨st1, body⟩) = http_get token decode (.ok ⟨st2, body⟩)) ∧
    (∀ (token : Except SpotifyError String) (decode : List Char → Option α)
      (resp : HttpResponse),
      (∃ v, http_get token decode (.ok resp) = .ok v) ↔
        (∃ t, token = .ok t) ∧ (decode (process_spotify_api_response resp.body)).isSome) := by
  refine ⟨fun token decode st1 st2 body => rfl, fun token decode resp => ?_⟩
  cases token with
  | error e => simp [http_get]
  | ok t =>
    cases h : decode (process_spotify_api_response resp.body) with
    | some v => simp [http_get, h]
    | none => simp [http_get, h]

end SpotifyClient

namespace SpotifyClient

/-- The pagination loop consumes exactly a served chain of pages: it appends
each page's items in order and stops at the page whose `next` is absent. -/
theorem paging_go_chain {α : Type}
    (fetch : String → Query → Except SpotifyError (Page α)) (payload : Query) :
    ∀ (ps : List (Page α)) (next : Option String) (items : List α) (fuel : Nat),
      FetchChain fetch payload next ps → ps.length ≤ fuel →
      paging_go fetch payload fuel items next =
        some (.ok (items ++ (ps.map Page.items).flatten)) := by
  intro ps
  induction ps with
  | nil =>
    intro next items fuel hchain _
    cases next with
    | none => simp [paging_go]
    | some url => exact absurd hchain (by simp [FetchChain])
  | cons p ps ih =>
    intro next items fuel hchain hfuel
    cases next with
    | none => exact absurd hchain (by simp [FetchChain])
    | some url =>
      obtain ⟨hf, hrest⟩ := hchain
      cases fuel with
      | zero => simp at hfuel
      | succ fuel =>
        have hfuel' : ps.length ≤ fuel := Nat.le_of_succ_le_succ (by simpa using hfuel)
        rw [paging_go, hf]
        show paging_go fetch payload fuel (items ++ p.items) p.next = _
        rw [ih p.next (items ++ p.items) fuel hrest hfuel']
        simp

/-- Claim C2: for every sequence of pages, each holding an ordered item list
and an optional next URL, `all_paging_items` returns the concatenation of the
pages' items in upstream page order and within-page order, fetching pages
exactly until a page whose `next` is absent; the same holds for the
cursor-based walker `all_cursor_based_paging_items` (which passes an empty
query to every fetch). -/
theorem claim_C2_collect_all (α : Type) :
    (∀ (fetch : String → Query → Except SpotifyError (Page α)) (payload : Query)
      (first_page : Page α) (ps : List (Page α)) (fuel : Nat),
      FetchChain fetch payload first_page.next ps → ps.length ≤ fuel →
      all_paging_items fetch first_page payload fuel =
        some (.ok (first_page.items ++ (ps.map Page.items).flatten))) ∧
    (∀ (fetch : String → Query → Except SpotifyError (Page α))
      (first_page : CursorBasedPage α) (ps : List (Page α)) (fuel : Nat),
      FetchChain fetch [] first_page.next ps → ps.length ≤ fuel →
      all_cursor_based_paging_items fetch first_page fuel =
        some (.ok (first_page.items ++ (ps.map Page.items).flatten))) := by
  constructor
  · intro fetch payload first_page ps fuel hchain hfuel
    exact paging_go_chain fetch payload ps first_page.next first_page.items fuel hchain hfuel
  · intro fetch first_page ps fuel hchain hfuel
    exact paging_go_chain fetch [] ps first_page.next first_page.items fuel hchain hfuel

/-- Claim C2 witness: the spec's example — a first page `[A, B]` with
`next = P2` followed by a page `[C]` with no `next` yields `[A, B, C]`, for
both pagination styles. -/
theorem claim_C2_collect_all_witness :
    (FetchChain
        (fun url _ => if url = "P2" then Except.ok (⟨["C"], none⟩ : Page String)
          else Except.error .transport)
        market_query (some "P2") [⟨["C"], none⟩] ∧
      ([(⟨["C"], none⟩ : Page String)]).length ≤ 1) ∧
    all_paging_items
        (fun url _ => if url = "P2" then Except.ok (⟨["C"], none⟩ : Page String)
          else Except.error .transport)
        ⟨["A", "B"], some "P2"⟩ market_query 1 = some (.ok ["A", "B", "C"]) ∧
    all_cursor_based_paging_items
        (fun url _ => if url = "P2" then Except.ok (⟨["C"], none⟩ : Page String)
          else Except.error .transport)
        ⟨["A", "B"], some "P2"⟩ 1 = some (.ok ["A", "B", "C"]) := by
  refine ⟨⟨by simp [FetchChain], by simp⟩, ?_, ?_⟩
  · have h := (claim_C2_collect_all String).1
      (fun url _ => if url = "P2" then Except.ok (⟨["C"], none⟩ : Page String)
        else Except.error .transport)
      market_query ⟨["A", "B"], some "P2"⟩ [⟨["C"], none⟩] 1
      (by simp [FetchChain]) (by simp)
    simpa using h
  · have h := (claim_C2_collect_all String).2
      (fun url _ => if url = "P2" then Except.ok (⟨["C"], none⟩ : Page String)
        else Except.error .transport)
      ⟨["A", "B"], some "P2"⟩ [⟨["C"], none⟩] 1
      (by simp [FetchChain]) (by simp)
    simpa using h

end SpotifyClient

namespace SpotifyClient

/-- The function `spec_dedup` only consults the seen list through membership, so any two
membership-equivalent seen lists give the same result. -/
theorem spec_dedup_congr :
    ∀ (l : List PlayHistory) (seen1 seen2 : List String),
      (∀ n, n ∈ seen1 ↔ n ∈ seen2) → spec_dedup seen1 l = spec_dedup seen2 l := by
  intro l
  induction l with
  | nil => intro seen1 seen2 _; rfl
  | cons h rest ih =>
    intro seen1 seen2 hmem
    by_cases hs : h.track.name ∈ seen1
    · rw [spec_dedup, spec_dedup, if_pos hs, if_pos ((hmem _).mp hs)]
      exact ih seen1 seen2 hmem
    · rw [spec_dedup, spec_dedup, if_neg hs, if_neg (fun c => hs ((hmem _).mpr c))]
      rw [ih (h.track.name :: seen1) (h.track.name :: seen2) (by intro n; simp [hmem n])]

/-- The accumulator form of the recently-played loop agrees with the spec's
first-occurrence description when every entry converts: already-kept tracks
act only through their names. -/
theorem recently_go_spec :
    ∀ (rest : List PlayHistory) (tracks : List Track),
      (∀ h ∈ rest, h.track.convertible = true) →
      recently_played_go tracks rest = tracks ++ spec_dedup (tracks.map Track.name) rest := by
  intro rest
  induction rest with
  | nil => intro tracks _; simp [recently_played_go, spec_dedup]
  | cons h rest ih =>
    intro tracks hconv
    have hc : h.track.convertible = true := hconv h (by simp)
    by_cases hseen : h.track.name ∈ tracks.map Track.name
    · have hany : tracks.any (fun t => t.name = h.track.name) = true := by
        simp only [List.any_eq_true, decide_eq_true_eq]
        obtain ⟨t, ht, hname⟩ := List.mem_map.mp hseen
        exact ⟨t, ht, hname⟩
      rw [recently_played_go, if_pos hany, spec_dedup, if_pos hseen]
      exact ih tracks (fun h' hh' => hconv h' (by simp [hh']))
    · have hany : tracks.any (fun t => t.name = h.track.name) = false := by
        simp only [List.any_eq_false, decide_eq_true_eq]
        intro t ht hname
        exact hseen (List.mem_map.mpr ⟨t, ht, hname⟩)
      rw [recently_played_go, if_neg (by simp [hany]), Track.try_from_full_track, if_pos hc,
        spec_dedup, if_neg hseen]
      show recently_played_go (tracks ++ [⟨h.track.name, h.track.id⟩]) rest = _
      have hih := ih (tracks ++ [(⟨h.track.name, h.track.id⟩ : Track)])
        (fun h' hh' => hconv h' (List.mem_cons_of_mem _ hh'))
      rw [hih]
      rw [spec_dedup_congr rest
        ((tracks ++ [(⟨h.track.name, h.track.id⟩ : Track)]).map Track.name)
        (h.track.name :: tracks.map Track.name) (fun n => by simp [or_comm])]
      simp

/-- Claim C4: when every play-history entry converts, the recently-played
deduplication keeps, in scan order, the first occurrence of each distinct
track name and drops every later entry whose name was already seen
(`spec_dedup` is the spec's description written out); the spec's example
`[(X,1), (Y,2), (X,3)]` yields `[(X,1), (Y,2)]`. -/
theorem claim_C4_recently_played_first_occurrence :
    (∀ play_histories : List PlayHistory,
      (∀ h ∈ play_histories, h.track.convertible = true) →
      recently_played_dedup play_histories = spec_dedup [] play_histories) ∧
    recently_played_dedup [⟨⟨"X", 1, true⟩⟩, ⟨⟨"Y", 2, true⟩⟩, ⟨⟨"X", 3, true⟩⟩] =
      [⟨"X", 1⟩, ⟨"Y", 2⟩] := by
  constructor
  · intro play_histories hconv
    rw [recently_played_dedup, recently_go_spec play_histories [] hconv]
    rfl
  · rfl

/-- Claim C4 witness: the general first-occurrence theorem applied at the
spec's example input. -/
theorem claim_C4_witness :
    (∀ h ∈ ([⟨⟨"X", 1, true⟩⟩, ⟨⟨"Y", 2, true⟩⟩, ⟨⟨"X", 3, true⟩⟩] : List PlayHistory),
      h.track.convertible = true) ∧
    recently_played_dedup [⟨⟨"X", 1, true⟩⟩, ⟨⟨"Y", 2, true⟩⟩, ⟨⟨"X", 3, true⟩⟩] =
      spec_dedup [] [⟨⟨"X", 1, true⟩⟩, ⟨⟨"Y", 2, true⟩⟩, ⟨⟨"X", 3, true⟩⟩] := by
  refine ⟨by decide, ?_⟩
  exact claim_C4_recently_played_first_occurrence.1 _ (by decide)

/-- Tracks already accumulated by the recently-played loop are never removed. -/
theorem recently_go_mono :
    ∀ (rest : List PlayHistory) (tracks : List Track) (t : Track),
      t ∈ tracks → t ∈ recently_played_go tracks rest := by
  intro rest
  induction rest with
  | nil => intro tracks t ht; simpa [recently_played_go] using ht
  | cons h rest ih =>
    intro tracks t ht
    rw [recently_played_go]
    by_cases hany : tracks.any (fun t => t.name = h.track.name) = true
    · rw [if_pos hany]; exact ih tracks t ht
    · rw [if_neg hany]
      cases hc : Track.try_from_full_track h.track with
      | some track => exact ih (tracks ++ [track]) t (by simp [ht])
      | none => exact ih tracks t ht

/-- If no already-kept track and no earlier convertible entry carries the
name, the loop reaches the convertible entry and keeps it. -/
theorem recently_go_reaches :
    ∀ (pre : List PlayHistory) (tracks : List Track) (h : PlayHistory)
      (post : List PlayHistory),
      h.track.convertible = true →
      (∀ t ∈ tracks, t.name ≠ h.track.name) →
      (∀ h' ∈ pre, h'.track.name = h.track.name → h'.track.convertible = false) →
      (⟨h.track.name, h.track.id⟩ : Track) ∈ recently_played_go tracks (pre ++ h :: post) := by
  intro pre
  induction pre with
  | nil =>
    intro tracks h post hc htracks _
    rw [List.nil_append, recently_played_go]
    have hany : tracks.any (fun t => t.name = h.track.name) = false := by
      simp only [List.any_eq_false, decide_eq_true_eq]
      exact htracks
    rw [if_neg (by simp [hany]), Track.try_from_full_track, if_pos hc]
    show (⟨h.track.name, h.track.id⟩ : Track) ∈
      recently_played_go (tracks ++ [⟨h.track.name, h.track.id⟩]) post
    exact recently_go_mono post (tracks ++ [⟨h.track.name, h.track.id⟩])
      ⟨h.track.name, h.track.id⟩ (by simp)
  | cons h' pre ih =>
    intro tracks h post hc htracks hpre
    rw [List.cons_append, recently_played_go]
    by_cases hany : tracks.any (fun t => t.name = h'.track.name) = true
    · rw [if_pos hany]
      exact ih tracks h post hc htracks (fun x hx hn => hpre x (by simp [hx]) hn)
    · rw [if_neg hany]
      by_cases hname : h'.track.name = h.track.name
      · have : h'.track.convertible = false := hpre h' (by simp) hname
        rw [Track.try_from_full_track, if_neg (by simp [this])]
        exact ih tracks h post hc htracks (fun x hx hn => hpre x (by simp [hx]) hn)
      · cases hc' : Track.try_from_full_track h'.track with
        | some track =>
          have htrack_name : track.name = h'.track.name := by
            rw [Track.try_from_full_track] at hc'
            by_cases hb : h'.track.convertible = true
            · rw [if_pos hb] at hc'; cases hc'; rfl
            · rw [if_neg hb] at hc'; cases hc'
          refine ih (tracks ++ [track]) h post hc ?_ (fun x hx hn => hpre x (by simp [hx]) hn)
          intro t ht
          rcases List.mem_append.mp ht with hl | hr
          · exact htracks t hl
          · have : t = track := by simpa using hr
            rw [this, htrack_name]
            exact hname
        | none =>
          exact ih tracks h post hc htracks (fun x hx hn => hpre x (by simp [hx]) hn)

/-- Claim C10: the seen-name check consults only successfully converted
tracks — if every earlier occurrence of a name failed domain conversion, a
later convertible occurrence of that name is still included in the output. -/
theorem claim_C10_failed_conversion_not_seen :
    ∀ (pre post : List PlayHistory) (h : PlayHistory),
      h.track.convertible = true →
      (∀ h' ∈ pre, h'.track.name = h.track.name → h'.track.convertible = false) →
      (⟨h.track.name, h.track.id⟩ : Track) ∈ recently_played_dedup (pre ++ h :: post) := by
  intro pre post h hc hpre
  rw [recently_played_dedup]
  exact recently_go_reaches pre [] h post hc (by simp) hpre

/-- Claim C10 witness: an inconvertible `(X,1)` followed by a convertible
`(X,2)` — the latter is kept even though an entry named `X` came earlier. -/
theorem claim_C10_witness :
    (⟨⟨"X", 2, true⟩⟩ : PlayHistory).track.convertible = true ∧
    (∀ h' ∈ ([⟨⟨"X", 1, false⟩⟩] : List PlayHistory),
      h'.track.name = (⟨⟨"X", 2, true⟩⟩ : PlayHistory).track.name →
      h'.track.convertible = false) ∧
    (⟨"X", 2⟩ : Track) ∈ recently_played_dedup [⟨⟨"X", 1, false⟩⟩, ⟨⟨"X", 2, true⟩⟩] := by
  refine ⟨rfl, by decide, ?_⟩
  exact claim_C10_failed_conversion_not_seen [⟨⟨"X", 1, false⟩⟩] [] ⟨⟨"X", 2, true⟩⟩ rfl
    (by decide)

end SpotifyClient

namespace SpotifyClient

/-- Claim C5: `search` returns an error exactly when at least one of the four
type-specific sub-searches fails or returns a result whose kind differs from
the requested type; in every such case the result is an error, so no partial
`SearchResults` value is returned, and a kind mismatch is fatal rather than
silently ignored. -/
theorem claim_C5_search_error_iff :
    ∀ track_result artist_result album_result playlist_result :
        Except SpotifyError SearchResult,
      (∃ e, search track_result artist_result album_result playlist_result = .error e) ↔
        ((∃ e, track_result = .error e) ∨
          (∃ r, track_result = .ok r ∧ r.isTracks = false)) ∨
        ((∃ e, artist_result = .error e) ∨
          (∃ r, artist_result = .ok r ∧ r.isArtists = false)) ∨
        ((∃ e, album_result = .error e) ∨
          (∃ r, album_result = .ok r ∧ r.isAlbums = false)) ∨
        ((∃ e, playlist_result = .error e) ∨
          (∃ r, playlist_result = .ok r ∧ r.isPlaylists = false)) := by
  intro tr ar al pl
  rcases tr with e1 | t <;> rcases ar with e2 | a <;> rcases al with e3 | b <;>
    rcases pl with e4 | p
  all_goals try (simp [search]; done)
  cases t
  case Tracks ti =>
    cases a
    case Artists ai =>
      cases b
      case Albums bi =>
        cases p <;>
          simp [search, SearchResult.isTracks, SearchResult.isArtists,
            SearchResult.isAlbums, SearchResult.isPlaylists]
      all_goals
        simp [search, SearchResult.isTracks, SearchResult.isArtists,
          SearchResult.isAlbums, SearchResult.isPlaylists]
    all_goals
      simp [search, SearchResult.isTracks, SearchResult.isArtists,
        SearchResult.isAlbums, SearchResult.isPlaylists]
  all_goals
    simp [search, SearchResult.isTracks, SearchResult.isArtists,
      SearchResult.isAlbums, SearchResult.isPlaylists]

end SpotifyClient

namespace SpotifyClient

/-- On albums with present dates the partial comparator succeeds and agrees
with `Nat.compare` on the dates. -/
theorem release_cmp_eq {a b : Album}
    (ha : a.release_date.isSome) (hb : b.release_date.isSome) :
    release_date_cmp a.release_date b.release_date =
      some (compare (a.release_date.getD 0) (b.release_date.getD 0)) := by
  obtain ⟨x, hx⟩ := Option.isSome_iff_exists.mp ha
  obtain ⟨y, hy⟩ := Option.isSome_iff_exists.mp hb
  rw [hx, hy]
  rfl

/-- Stable insertion into a dated, sorted list succeeds and produces a dated,
sorted permutation of the extended list. -/
theorem sort_insert_total :
    ∀ (l : List Album) (a : Album),
      a.release_date.isSome → (∀ b ∈ l, b.release_date.isSome) → l.Sorted dateLe →
      ∃ l2, sort_insert a l = some l2 ∧ List.Perm l2 (a :: l) ∧ l2.Sorted dateLe ∧
        (∀ b ∈ l2, b.release_date.isSome) := by
  intro l
  induction l with
  | nil =>
    intro a ha _ _
    exact ⟨[a], rfl, List.Perm.refl _, by simp, by simpa using ha⟩
  | cons b l ih =>
    intro a ha hdated hsort
    have hb : b.release_date.isSome := hdated b (by simp)
    rw [List.sorted_cons] at hsort
    rw [sort_insert, release_cmp_eq ha hb]
    cases hcmp : compare (a.release_date.getD 0) (b.release_date.getD 0) with
    | lt =>
      have hab : dateLe a b := (Nat.compare_eq_lt.mp hcmp).le
      refine ⟨a :: b :: l, rfl, List.Perm.refl _, ?_, ?_⟩
      · rw [List.sorted_cons]
        refine ⟨?_, List.sorted_cons.mpr hsort⟩
        intro z hz
        rcases List.mem_cons.mp hz with hz | hz
        · rw [hz]; exact hab
        · exact le_trans hab (hsort.1 z hz)
      · intro z hz
        rcases List.mem_cons.mp hz with hz | hz
        · rw [hz]; exact ha
        · exact hdated z hz
    | eq =>
      have hba : dateLe b a := (Nat.compare_eq_eq.mp hcmp).ge
      obtain ⟨l2, hins, hperm, hsort2, hdated2⟩ :=
        ih a ha (fun z hz => hdated z (List.mem_cons_of_mem _ hz)) hsort.2
      rw [hins]
      refine ⟨b :: l2, rfl, ?_, ?_, ?_⟩
      · exact (hperm.cons b).trans (List.Perm.swap a b l)
      · rw [List.sorted_cons]
        refine ⟨?_, hsort2⟩
        intro z hz
        rcases List.mem_cons.mp (hperm.mem_iff.mp hz) with hz2 | hz2
        · rw [hz2]; exact hba
        · exact hsort.1 z hz2
      · intro z hz
        rcases List.mem_cons.mp hz with hz | hz
        · rw [hz]; exact hb
        · exact hdated2 z hz
    | gt =>
      have hba : dateLe b a := (Nat.compare_eq_gt.mp hcmp).le
      obtain ⟨l2, hins, hperm, hsort2, hdated2⟩ :=
        ih a ha (fun z hz => hdated z (List.mem_cons_of_mem _ hz)) hsort.2
      rw [hins]
      refine ⟨b :: l2, rfl, ?_, ?_, ?_⟩
      · exact (hperm.cons b).trans (List.Perm.swap a b l)
      · rw [List.sorted_cons]
        refine ⟨?_, hsort2⟩
        intro z hz
        rcases List.mem_cons.mp (hperm.mem_iff.mp hz) with hz2 | hz2
        · rw [hz2]; exact hba
        · exact hsort.1 z hz2
      · intro z hz
        rcases List.mem_cons.mp hz with hz | hz
        · rw [hz]; exact hb
        · exact hdated2 z hz

/-- The embedded `sort_by` succeeds on dated input and produces a dated,
sorted permutation of the accumulated input. -/
theorem sort_go_total :
    ∀ (l acc : List Album),
      (∀ a ∈ l, a.release_date.isSome) → (∀ a ∈ acc, a.release_date.isSome) →
      acc.Sorted dateLe →
      ∃ out, sort_by_release_go acc l = some out ∧ List.Perm out (acc ++ l) ∧
        out.Sorted dateLe ∧ (∀ a ∈ out, a.release_date.isSome) := by
  intro l
  induction l with
  | nil =>
    intro acc _ hacc hsort
    exact ⟨acc, rfl, by simp, hsort, hacc⟩
  | cons a l ih =>
    intro acc hl hacc hsort
    obtain ⟨acc2, hins, hperm, hsort2, hdated2⟩ :=
      sort_insert_total acc a (hl a (by simp)) hacc hsort
    rw [sort_by_release_go, hins]
    obtain ⟨out, hgo, hperm2, hsort3, hdated3⟩ :=
      ih acc2 (fun z hz => hl z (by simp [hz])) hdated2 hsort2
    refine ⟨out, hgo, ?_, hsort3, hdated3⟩
    have hmid : List.Perm ((a :: acc) ++ l) (acc ++ a :: l) := List.perm_middle.symm
    exact hperm2.trans ((hperm.append_right l).trans hmid)

/-- The accumulator form of the name dedup agrees with its direct recursive
form. -/
theorem dedup_go_eq :
    ∀ (l : List Album) (seen : List String) (acc : List Album),
      dedup_albums_go seen acc l = acc ++ dedup_simple seen l := by
  intro l
  induction l with
  | nil => intro seen acc; simp [dedup_albums_go, dedup_simple]
  | cons a rest ih =>
    intro seen acc
    by_cases h : a.name ∈ seen
    · rw [dedup_albums_go, if_pos h, dedup_simple, if_pos h]
      exact ih seen acc
    · rw [dedup_albums_go, if_neg h, dedup_simple, if_neg h, ih (a.name :: seen) (acc ++ [a])]
      simp

/-- Every album kept by the dedup pass comes from the input. -/
theorem dedup_simple_subset :
    ∀ (l : List Album) (seen : List String) (x : Album),
      x ∈ dedup_simple seen l → x ∈ l := by
  intro l
  induction l with
  | nil => intro seen x hx; simp [dedup_simple] at hx
  | cons a rest ih =>
    intro seen x hx
    by_cases h : a.name ∈ seen
    · rw [dedup_simple, if_pos h] at hx
      exact List.mem_cons_of_mem _ (ih seen x hx)
    · rw [dedup_simple, if_neg h] at hx
      rcases List.mem_cons.mp hx with hx | hx
      · rw [hx]; simp
      · exact List.mem_cons_of_mem _ (ih _ x hx)

/-- No album kept by the dedup pass has a name already in the seen set. -/
theorem dedup_simple_not_seen :
    ∀ (l : List Album) (seen : List String) (x : Album),
      x ∈ dedup_simple seen l → x.name ∉ seen := by
  intro l
  induction l with
  | nil => intro seen x hx; simp [dedup_simple] at hx
  | cons a rest ih =>
    intro seen x hx
    by_cases h : a.name ∈ seen
    · rw [dedup_simple, if_pos h] at hx
      exact ih seen x hx
    · rw [dedup_simple, if_neg h] at hx
      rcases List.mem_cons.mp hx with hx | hx
      · rw [hx]; exact h
      · have := ih _ x hx
        intro hc
        exact this (List.mem_cons_of_mem _ hc)

/-- Every input name not blocked by the seen set survives the dedup pass. -/
theorem dedup_simple_cover :
    ∀ (l : List Album) (seen : List String) (n : String),
      n ∈ l.map Album.name → n ∉ seen → n ∈ (dedup_simple seen l).map Album.name := by
  intro l
  induction l with
  | nil => intro seen n hn _; simp at hn
  | cons a rest ih =>
    intro seen n hn hseen
    by_cases h : a.name ∈ seen
    · rw [dedup_simple, if_pos h]
      rcases List.mem_map.mp hn with ⟨x, hx, hname⟩
      rcases List.mem_cons.mp hx with hx | hx
      · exact absurd (by rw [← hname, hx]; exact h) hseen
      · exact ih seen n (List.mem_map.mpr ⟨x, hx, hname⟩) hseen
    · rw [dedup_simple, if_neg h]
      by_cases hna : n = a.name
      · rw [List.map_cons]; rw [hna]; simp
      · rcases List.mem_map.mp hn with ⟨x, hx, hname⟩
        rcases List.mem_cons.mp hx with hx | hx
        · exact absurd (by rw [← hname, hx]) hna
        · rw [List.map_cons]
          refine List.mem_cons_of_mem _ (ih (a.name :: seen) n
            (List.mem_map.mpr ⟨x, hx, hname⟩) ?_)
          intro hc
          rcases List.mem_cons.mp hc with hc | hc
          · exact hna hc
          · exact hseen hc

/-- The dedup pass keeps at most one album per distinct name. -/
theorem dedup_simple_nodup :
    ∀ (l : List Album) (seen : List String),
      ((dedup_simple seen l).map Album.name).Nodup := by
  intro l
  induction l with
  | nil => intro seen; simp [dedup_simple]
  | cons a rest ih =>
    intro seen
    by_cases h : a.name ∈ seen
    · rw [dedup_simple, if_pos h]; exact ih seen
    · rw [dedup_simple, if_neg h, List.map_cons, List.nodup_cons]
      refine ⟨?_, ih (a.name :: seen)⟩
      intro hc
      rcases List.mem_map.mp hc with ⟨x, hx, hname⟩
      exact dedup_simple_not_seen rest (a.name :: seen) x hx (by rw [hname]; simp)

/-- On an input that descends by date, every kept album dominates every
input album that shares its name. -/
theorem dedup_simple_max :
    ∀ (l : List Album) (seen : List String),
      l.Pairwise (flip dateLe) →
      ∀ x ∈ dedup_simple seen l, ∀ a ∈ l, a.name = x.name → dateLe a x := by
  intro l
  induction l with
  | nil => intro seen _ x hx; simp [dedup_simple] at hx
  | cons b rest ih =>
    intro seen hpair x hx a ha hname
    rw [List.pairwise_cons] at hpair
    by_cases h : b.name ∈ seen
    · rw [dedup_simple, if_pos h] at hx
      rcases List.mem_cons.mp ha with hab | hab
      · exfalso
        have := dedup_simple_not_seen rest seen x hx
        rw [← hname, hab] at this
        exact this h
      · exact ih seen hpair.2 x hx a hab hname
    · rw [dedup_simple, if_neg h] at hx
      rcases List.mem_cons.mp hx with hxb | hxb
      · rcases List.mem_cons.mp ha with hab | hab
        · rw [hab, hxb]; exact le_refl _
        · rw [hxb]
          exact hpair.1 a hab
      · rcases List.mem_cons.mp ha with hab | hab
        · exfalso
          have := dedup_simple_not_seen rest (b.name :: seen) x hxb
          rw [← hname, hab] at this
          simp at this
        · exact ih (b.name :: seen) hpair.2 x hxb a hab hname

end SpotifyClient

namespace SpotifyClient

/-- Claim C3: for every input list of albums whose release dates all compare
(the spec's "dates must be comparable" precondition), `process_artist_albums`
sorts by ascending release date and then, scanning from the end, keeps for
each distinct album name only the latest-dated entry: every output entry is
an input entry, the output names are exactly the input names with each name
kept exactly once, and the kept entry's date dominates every input entry of
the same name. -/
theorem claim_C3_process_artist_albums :
    ∀ albums : List Album, AllDated albums →
      ∃ out, process_artist_albums albums = some out ∧
        (∀ x ∈ out, x ∈ albums) ∧
        (∀ n, n ∈ out.map Album.name ↔ n ∈ albums.map Album.name) ∧
        (out.map Album.name).Nodup ∧
        (∀ x ∈ out, ∀ a ∈ albums, a.name = x.name → dateLe a x) := by
  intro albums hd
  obtain ⟨sorted, hgo, hperm, hsort, _⟩ := sort_go_total albums [] hd (by simp) (by simp)
  have hp : process_artist_albums albums =
      some (dedup_simple [] sorted.reverse) := by
    rw [process_artist_albums, hgo]
    show some (dedup_albums_go [] [] sorted.reverse) = _
    rw [dedup_go_eq, List.nil_append]
  have hperm' : List.Perm sorted albums := by simpa using hperm
  have hpair : sorted.reverse.Pairwise (flip dateLe) :=
    List.pairwise_reverse.mpr hsort
  refine ⟨dedup_simple [] sorted.reverse, hp, ?_, ?_, dedup_simple_nodup _ _, ?_⟩
  · intro x hx
    have := dedup_simple_subset _ _ _ hx
    rw [List.mem_reverse] at this
    exact hperm'.mem_iff.mp this
  · intro n
    constructor
    · intro hn
      rcases List.mem_map.mp hn with ⟨x, hx, hname⟩
      have := dedup_simple_subset _ _ _ hx
      rw [List.mem_reverse] at this
      exact List.mem_map.mpr ⟨x, hperm'.mem_iff.mp this, hname⟩
    · intro hn
      rcases List.mem_map.mp hn with ⟨x, hx, hname⟩
      have hxs : x ∈ sorted.reverse := List.mem_reverse.mpr (hperm'.mem_iff.mpr hx)
      exact dedup_simple_cover _ [] n (List.mem_map.mpr ⟨x, hxs, hname⟩) (by simp)
  · intro x hx a ha hname
    have has : a ∈ sorted.reverse := List.mem_reverse.mpr (hperm'.mem_iff.mpr ha)
    exact dedup_simple_max _ [] hpair x hx a has hname

/-- Claim C3 witness: the spec's example — two albums named A dated 2020 and
2022 reduce to only the 2022 entry. -/
theorem claim_C3_witness :
    AllDated [(⟨"A", some 2020⟩ : Album), ⟨"A", some 2022⟩] ∧
    (∃ out, process_artist_albums [(⟨"A", some 2020⟩ : Album), ⟨"A", some 2022⟩] =
        some out ∧
      (∀ x ∈ out, x ∈ [(⟨"A", some 2020⟩ : Album), ⟨"A", some 2022⟩]) ∧
      (∀ n, n ∈ out.map Album.name ↔
        n ∈ ([(⟨"A", some 2020⟩ : Album), ⟨"A", some 2022⟩]).map Album.name) ∧
      (out.map Album.name).Nodup ∧
      (∀ x ∈ out, ∀ a ∈ [(⟨"A", some 2020⟩ : Album), ⟨"A", some 2022⟩],
        a.name = x.name → dateLe a x)) ∧
    process_artist_albums [(⟨"A", some 2020⟩ : Album), ⟨"A", some 2022⟩] =
      some [⟨"A", some 2022⟩] := by
  have h1 : AllDated [(⟨"A", some 2020⟩ : Album), ⟨"A", some 2022⟩] := by
    intro a ha
    rcases List.mem_cons.mp ha with h | h
    · rw [h]; rfl
    · rcases List.mem_cons.mp h with h2 | h2
      · rw [h2]; rfl
      · simp at h2
  exact ⟨h1, claim_C3_process_artist_albums _ h1, rfl⟩

/-- Claim C9 counterexample: `process_artist_albums` panics (modelled as
`none`) on a two-album list whose release dates fail to compare — the
comparator passed to `sort_by` calls `.unwrap()` on `partial_cmp` — and
`username` panics on a configured login name rejected by the id validator
(`UserId::from_id(name).unwrap()`), refuting "no public operation of the
client panics on any input". -/
theorem claim_C9_counterexample :
    process_artist_albums [(⟨"A", none⟩ : Album), ⟨"B", some 2020⟩] = none ∧
    username "user@example.com" = none := by
  constructor
  · rfl
  · decide

/-- Claim C9 (amended): public operations report failures as typed results
rather than panicking, except for the two `unwrap`s the counterexample
exhibits: `process_artist_albums` never panics on album lists whose release
dates all compare, and `username` never panics on login names accepted by
the id validator. -/
theorem claim_C9_amended :
    (∀ albums : List Album, AllDated albums →
      (process_artist_albums albums).isSome) ∧
    (∀ login_name : String, valid_user_id login_name = true →
      (username login_name).isSome) := by
  constructor
  · intro albums hd
    obtain ⟨sorted, hgo, _, _, _⟩ := sort_go_total albums [] hd (by simp) (by simp)
    rw [process_artist_albums, hgo]
    rfl
  · intro login hvalid
    simp [username, hvalid]

/-- Claim C9 witness: the amended no-panic guarantee applied at a dated album
list and at an alphanumeric login name. -/
theorem claim_C9_amended_witness :
    (AllDated [(⟨"A", some 2020⟩ : Album)] ∧
      (process_artist_albums [(⟨"A", some 2020⟩ : Album)]).isSome) ∧
    (valid_user_id "alice" = true ∧ (username "alice").isSome) := by
  have h1 : AllDated [(⟨"A", some 2020⟩ : Album)] := by
    intro a ha
    rcases List.mem_cons.mp ha with h | h
    · rw [h]; rfl
    · simp at h
  have h2 : valid_user_id "alice" = true := by decide
  exact ⟨⟨h1, claim_C9_amended.1 _ h1⟩, ⟨h2, claim_C9_amended.2 _ h2⟩⟩

end SpotifyClient

namespace SpotifyClient

/-- A prefix of a concatenation restricts to a prefix of the left part. -/
theorem prefix_take_of_prefix_append {p l t : List Char} (h : p <+: l ++ t) :
    p.take l.length <+: l := by
  obtain ⟨z, hz⟩ := h
  have h2 := congrArg (List.take l.length) hz
  rw [List.take_append_eq_append_take, List.take_append_eq_append_take,
    List.take_length, Nat.sub_self, List.take_zero, List.append_nil] at h2
  exact ⟨_, h2⟩

/-- The empty text has no occurrence of the pattern. -/
theorem noOcc_nil : NoOcc [] := by
  intro n h
  rw [List.drop_nil, List.prefix_nil] at h
  exact absurd h (by simp [imagesNullPat])

/-- Occurrence-freeness of a cons splits into head and tail conditions. -/
theorem noOcc_cons {c : Char} {cs : List Char} :
    NoOcc (c :: cs) ↔ ¬ imagesNullPat <+: c :: cs ∧ NoOcc cs := by
  constructor
  · intro h
    exact ⟨by simpa using h 0, fun n => by simpa using h (n + 1)⟩
  · rintro ⟨h0, h⟩ n
    cases n with
    | zero => simpa using h0
    | succ n => simpa using h n

/-- Unfolding of `listReplace` at a match. -/
theorem listReplace_cons_pos {c : Char} {cs : List Char}
    (h : imagesNullPat <+: c :: cs) :
    listReplace (c :: cs) = imagesEmptyRep ++ listReplace (cs.drop 12) := by
  rw [listReplace, dif_pos h]

/-- Unfolding of `listReplace` at a non-match. -/
theorem listReplace_cons_neg {c : Char} {cs : List Char}
    (h : ¬ imagesNullPat <+: c :: cs) :
    listReplace (c :: cs) = c :: listReplace cs := by
  rw [listReplace, dif_neg h]

/-- No occurrence of the pattern can start inside the replacement text: the
pattern disagrees with every suffix of the replacement within the
replacement's own extent. -/
theorem rep_block_no_match :
    ∀ (n : Nat) (t : List Char), n < 11 →
      ¬ imagesNullPat <+: imagesEmptyRep.drop n ++ t := by
  intro n t hn h
  have h2 := prefix_take_of_prefix_append h
  rw [List.length_drop, show imagesEmptyRep.length = 11 from rfl] at h2
  interval_cases n <;> revert h2 <;> decide

/-- Prepending the replacement text to occurrence-free text keeps it
occurrence-free. -/
theorem noOcc_rep_append {t : List Char} (h : NoOcc t) :
    NoOcc (imagesEmptyRep ++ t) := by
  intro n hpre
  by_cases hn : n < 11
  · rw [List.drop_append_eq_append_drop] at hpre
    have h0 : n - imagesEmptyRep.length = 0 := by
      rw [show imagesEmptyRep.length = 11 from rfl]
      omega
    rw [h0, List.drop_zero] at hpre
    exact rep_block_no_match n t hn hpre
  · rw [List.drop_append_eq_append_drop] at hpre
    have h1 : imagesEmptyRep.drop n = [] :=
      List.drop_eq_nil_of_le
        (by rw [show imagesEmptyRep.length = 11 from rfl]; omega)
    rw [h1, List.nil_append] at hpre
    exact h (n - imagesEmptyRep.length) hpre

/-- No proper suffix of the pattern is a prefix of the replacement text
followed by anything. -/
theorem pat_suffix_refute_rep :
    ∀ (i : Nat) (y : List Char), 1 ≤ i → i ≤ 12 →
      ¬ imagesNullPat.drop i <+: imagesEmptyRep ++ y := by
  intro i y h1 h2 h
  have h3 := prefix_take_of_prefix_append h
  rw [show imagesEmptyRep.length = 11 from rfl] at h3
  interval_cases i <;> revert h3 <;> decide

/-- A proper suffix of the pattern found at the head of replaced text was
already at the head of the original text: replacement blocks never start
with such a suffix, and unreplaced characters are passed through. -/
theorem suffix_track :
    ∀ (n : Nat) (t : List Char), t.length ≤ n → ∀ i, 1 ≤ i → i ≤ 12 →
      imagesNullPat.drop i <+: listReplace t → imagesNullPat.drop i <+: t := by
  intro n
  induction n with
  | zero =>
    intro t ht i h1 h2 hp
    have ht0 : t = [] := List.eq_nil_of_length_eq_zero (Nat.le_zero.mp ht)
    subst ht0
    rw [listReplace, List.prefix_nil] at hp
    have hlen := congrArg List.length hp
    rw [List.length_drop, show imagesNullPat.length = 13 from rfl] at hlen
    simp at hlen
    omega
  | succ n ih =>
    intro t ht i h1 h2 hp
    cases t with
    | nil =>
      rw [listReplace, List.prefix_nil] at hp
      have hlen := congrArg List.length hp
      rw [List.length_drop, show imagesNullPat.length = 13 from rfl] at hlen
      simp at hlen
      omega
    | cons c cs =>
      by_cases hm : imagesNullPat <+: c :: cs
      · rw [listReplace_cons_pos hm] at hp
        exact absurd hp (pat_suffix_refute_rep i _ h1 h2)
      · rw [listReplace_cons_neg hm] at hp
        have hilt : i < imagesNullPat.length := by
          rw [show imagesNullPat.length = 13 from rfl]
          omega
        have hdrop : imagesNullPat.drop i = imagesNullPat[i] :: imagesNullPat.drop (i + 1) :=
          List.drop_eq_getElem_cons hilt
        have hcs : cs.length ≤ n := Nat.le_of_succ_le_succ (by simpa using ht)
        by_cases hi : i = 12
        · subst hi
          rw [hdrop] at hp ⊢
          rw [List.cons_prefix_cons] at hp
          rw [List.cons_prefix_cons]
          refine ⟨hp.1, ?_⟩
          rw [show imagesNullPat.drop 13 = [] from rfl]
          exact List.nil_prefix
        · rw [hdrop] at hp ⊢
          rw [List.cons_prefix_cons] at hp
          rw [List.cons_prefix_cons]
          exact ⟨hp.1, ih cs hcs (i + 1) (by omega) (by omega) hp.2⟩

/-- The fixed point of the rewrite: replaced text has no occurrence of the
pattern left. -/
theorem noOcc_listReplace :
    ∀ (n : Nat) (t : List Char), t.length ≤ n → NoOcc (listReplace t) := by
  intro n
  induction n with
  | zero =>
    intro t ht
    have ht0 : t = [] := List.eq_nil_of_length_eq_zero (Nat.le_zero.mp ht)
    subst ht0
    rw [listReplace]
    exact noOcc_nil
  | succ n ih =>
    intro t ht
    cases t with
    | nil =>
      rw [listReplace]
      exact noOcc_nil
    | cons c cs =>
      have hcs : cs.length ≤ n := Nat.le_of_succ_le_succ (by simpa using ht)
      by_cases hm : imagesNullPat <+: c :: cs
      · rw [listReplace_cons_pos hm]
        have hlen : (cs.drop 12).length ≤ n := by
          rw [List.length_drop]
          omega
        exact noOcc_rep_append (ih (cs.drop 12) hlen)
      · rw [listReplace_cons_neg hm]
        refine noOcc_cons.mpr ⟨?_, ih cs hcs⟩
        intro habs
        have hP : imagesNullPat = '"' :: imagesNullPat.drop 1 := rfl
        rw [hP, List.cons_prefix_cons] at habs
        obtain ⟨hc, h1⟩ := habs
        have h2 := suffix_track cs.length cs le_rfl 1 (by omega) (by omega) h1
        exact hm (by rw [hP, List.cons_prefix_cons]; exact ⟨hc, h2⟩)

/-- On occurrence-free text the rewrite is the identity. -/
theorem listReplace_of_noOcc : ∀ t : List Char, NoOcc t → listReplace t = t := by
  intro t
  induction t with
  | nil => intro _; rw [listReplace]
  | cons c cs ih =>
    intro h
    rw [noOcc_cons] at h
    rw [listReplace_cons_neg h.1, ih h.2]

/-- Claim C8: the response-body patch rewriting the literal text
`"images":null` to `"images":[]` is idempotent — applying it twice to any
input yields the same text as applying it once — and it is applied
unconditionally to every response body before decoding, so patching a body
up front never changes the outcome of `http_get`. -/
theorem claim_C8_patch_idempotent (α : Type) :
    (∀ s : List Char,
      process_spotify_api_response (process_spotify_api_response s) =
        process_spotify_api_response s) ∧
    (∀ (token : Except SpotifyError String) (decode : List Char → Option α)
      (st : Nat) (body : List Char),
      http_get token decode (.ok ⟨st, body⟩) =
        http_get token decode (.ok ⟨st, process_spotify_api_response body⟩)) := by
  have hproc : ∀ s : List Char,
      process_spotify_api_response (process_spotify_api_response s) =
        process_spotify_api_response s :=
    fun s => listReplace_of_noOcc (listReplace s) (noOcc_listReplace s.length s le_rfl)
  refine ⟨hproc, ?_⟩
  intro token decode st body
  cases token with
  | error e => rfl
  | ok tk =>
    show (match decode (process_spotify_api_response body) with
        | some v => (Except.ok v : Except SpotifyError α)
        | none => Except.error SpotifyError.decode) =
      (match decode (process_spotify_api_response (process_spotify_api_response body)) with
        | some v => Except.ok v
        | none => Except.error SpotifyError.decode)
    rw [hproc body]

end SpotifyClient
